import Mathlib

/-!
# hssh: host-file parsing (`models/host.go`)

A shallow embedding of the host-file parser of `hssh` and the properties of
its specification.

Go strings are modelled as lists of runes (`List Char`).  The library
routines the parser calls (`strings.TrimSpace`, `strings.Trim`,
`strings.ToLower`, `strings.Split`, and the five regular expressions, under
Go's leftmost-first matching) are modelled by the functions of the first
section; each one states the call it stands for.
-/

namespace Hssh

/-- A Go string, as its sequence of runes. -/
abbrev Str := List Char

/-! ## Library routines -/

/-- The rune predicate `unicode.IsSpace`, which `strings.TrimSpace` uses:
`\t \n \v \f \r`, space, U+0085, U+00A0 and the runes of category Z. -/
def isSpace (c : Char) : Bool :=
  let n := c.toNat
  (9 ≤ n && n ≤ 13) || n == 32 || n == 0x85 || n == 0xA0 || n == 0x1680 ||
  (0x2000 ≤ n && n ≤ 0x200A) || n == 0x2028 || n == 0x2029 || n == 0x202F ||
  n == 0x205F || n == 0x3000

/-- The class `\s` of Go regular expressions: `[\t\n\f\r ]`. -/
def isReSpace (c : Char) : Bool :=
  c == '\t' || c == '\n' || c == '\x0c' || c == '\r' || c == ' '

/-- The class `[\t\r\n]` of the blank-line expression. -/
def isBreak (c : Char) : Bool :=
  c == '\t' || c == '\r' || c == '\n'

/-- Removal of the leading and trailing runes that satisfy `p`. -/
def trimBoth (p : Char → Bool) (s : Str) : Str :=
  ((s.dropWhile p).reverse.dropWhile p).reverse

/-- `strings.TrimSpace`. -/
def TrimSpace (s : Str) : Str := trimBoth isSpace s

/-- `strings.Trim(s, " ")`: the cutset of the source is the single space. -/
def Trim (s : Str) : Str := trimBoth (fun c => c == ' ') s

/-- `strings.ToLower`, rune by rune.  The letters `A`..`Z` are mapped to
`a`..`z`; the case tables of the Go library for runes beyond ASCII are not
modelled and those runes are left as they are. -/
def ToLower (s : Str) : Str := s.map Char.toLower

/-- Scanning loop of `Split`: `skip` counts the runes of a separator just
found that are still to be passed over. -/
def splitFrom (sep : Str) : Nat → Str → List Str
  | _, [] => [[]]
  | skip + 1, _ :: cs => splitFrom sep skip cs
  | 0, c :: cs =>
    if sep.isPrefixOf (c :: cs) then
      [] :: splitFrom sep (sep.length - 1) cs
    else
      match splitFrom sep 0 cs with
      | seg :: segs => (c :: seg) :: segs
      | [] => [[c]]

/-- `strings.Split(s, sep)` for a non-empty separator: the segments between
the successive, non-overlapping occurrences of `sep`, leftmost first. -/
def Split (s sep : Str) : List Str := splitFrom sep 0 s

/-- Scanning loop of `ReplaceAll`. -/
def replaceFrom (pat rep : Str) : Nat → Str → Str
  | _, [] => []
  | skip + 1, _ :: cs => replaceFrom pat rep skip cs
  | 0, c :: cs =>
    if pat.isPrefixOf (c :: cs) then
      rep ++ replaceFrom pat rep (pat.length - 1) cs
    else
      c :: replaceFrom pat rep 0 cs

/-- `regexp.MustCompile(pat).ReplaceAllString(s, rep)` for an expression
`pat` that is a non-empty literal: every successive, non-overlapping
occurrence of `pat`, leftmost first, is replaced by `rep`. -/
def ReplaceAll (pat rep s : Str) : Str := replaceFrom pat rep 0 s

/-- Whether the expression `(|\s+)#` matches at the head of `s`: a possibly
empty run of `\s` followed by `#`. -/
def startsComment (s : Str) : Bool :=
  (s.dropWhile isReSpace).head? == some '#'

/-- Position of the scan of `stripComments` relative to the text. -/
inductive Scan where
  /-- At the start of the text or just after a line feed. -/
  | bol
  /-- Inside a line, outside any match. -/
  | mid
  /-- Inside a match, in the `\s+` run before the `#`. -/
  | blank
  /-- Inside a match, after the `#`. -/
  | comment
deriving DecidableEq

/-- Scanning loop of `stripComments`. -/
def stripFrom : Scan → Str → Str
  | _, [] => []
  | Scan.bol, c :: cs =>
    if startsComment (c :: cs) then
      if c = '#' then stripFrom Scan.comment cs else stripFrom Scan.blank cs
    else
      c :: stripFrom (if c = '\n' then Scan.bol else Scan.mid) cs
  | Scan.mid, c :: cs =>
    c :: stripFrom (if c = '\n' then Scan.bol else Scan.mid) cs
  | Scan.blank, c :: cs =>
    if c = '#' then stripFrom Scan.comment cs else stripFrom Scan.blank cs
  | Scan.comment, c :: cs =>
    if c = '\n' then c :: stripFrom Scan.bol cs else stripFrom Scan.comment cs

/-- `regexp.MustCompile("(?m)^(|\\s+)#.*").ReplaceAllString(s, "")`: at
every line start where a run of `\s` (which may span line feeds) is followed
by `#`, the run and the text up to the end of that line are removed. -/
def stripComments (s : Str) : Str := stripFrom Scan.bol s

/-- Scanning loop of `squeezeBreaks`; the flag tells that the previous rune
belonged to a run of breaks. -/
def squeezeFrom : Bool → Str → Str
  | _, [] => []
  | inRun, c :: cs =>
    if isBreak c then
      if inRun then squeezeFrom true cs else '\n' :: squeezeFrom true cs
    else
      c :: squeezeFrom false cs

/-- `regexp.MustCompile("[\t\r\n]+").ReplaceAllString(s, "\n")`. -/
def squeezeBreaks (s : Str) : Str := squeezeFrom false s

/-! ## Data model -/

/-- Modelled from the spec: the `Connection` record of `models/connection.go`,
with the five fields `ParseRow` assigns. -/
structure Connection where
  Name : Str := []
  Hostname : Str := []
  User : Str := []
  Port : Str := []
  IdentityFile : Str := []
deriving DecidableEq

/-- The `host` struct.  The `channel` field is touched by no function of
the parse path and is left out. -/
structure host where
  path : Str
  content : Str := []
  connections : List Connection := []

/-- The two validation predicates of `Connection`, defined outside
`host.go`; the parser only calls them. -/
structure Validation where
  IsAllowed : Connection → Bool
  IsWellConfigured : Connection → Bool

/-! ## Operations of `host.go` -/

/-- `NewHost`. -/
def NewHost (path : Str) : host := { path := path }

/-- `ReadFile`; `readFile` is what `ioutil.ReadFile` answers for a path at
the time of the call (`none` for an error). -/
def host.ReadFile (h : host) (readFile : Str → Option Str) : host :=
  match readFile h.path with
  | none => h
  | some contentBytes => { h with content := contentBytes }

/-- `getAttributeFromRow`, for a literal `attr` (the parameter `attribute`
of the source): in the expression `attr(|\s)` the empty alternative comes
first and always succeeds, so each match is the literal alone. -/
def getAttributeFromRow (attr row : Str) : Str :=
  Trim (ReplaceAll attr [] row)

/-- `regexp.MatchString("^" + lit, s)` for a literal `lit`. -/
def matchStart (lit s : Str) : Bool := lit.isPrefixOf s

/-- Body of the loop of `ParseRow` for one line of the block (the loop
variable `attribute` of the source is `line`). -/
def parseLine (connection : Connection) (line : Str) : Connection :=
  let line := Trim line
  let line := ToLower line
  if line = [] then connection
  else
    let connection :=
      if matchStart "hostname ".toList line then
        { connection with Hostname := getAttributeFromRow "hostname".toList line }
      else connection
    let connection :=
      if matchStart "user ".toList line then
        { connection with User := getAttributeFromRow "user".toList line }
      else connection
    let connection :=
      if matchStart "port ".toList line then
        { connection with Port := getAttributeFromRow "port".toList line }
      else connection
    let connection :=
      if matchStart "identityfile ".toList line then
        { connection with IdentityFile := getAttributeFromRow "identityfile".toList line }
      else connection
    let connection :=
      if matchStart "host ".toList line then
        { connection with Name := getAttributeFromRow "host".toList line }
      else connection
    connection

/-- `ParseRow`. -/
def ParseRow (hostRaw : Str) : Connection :=
  (Split hostRaw ['\n']).foldl parseLine {}

/-- The text `Parse` splits: trimmed, without comments, with every run of
breaks squeezed to one line feed. -/
def normalize (content : Str) : Str :=
  squeezeBreaks (stripComments (TrimSpace content))

/-- The segments `Parse` iterates over (the variable `hosts`). -/
def segments (content : Str) : List Str :=
  Split (ReplaceAll "Host ".toList "!!Host ".toList (normalize content)) "!!".toList

/-- Body of the loop of `Parse` for the segment of index `x`. -/
def parseStep (v : Validation) (h : host) (x : Nat) (seg : Str) : host :=
  if x = 0 then h
  else
    let connection := ParseRow seg
    if !v.IsAllowed connection then h
    else if !v.IsWellConfigured connection then h
    else { h with connections := h.connections ++ [connection] }

/-- The loop of `Parse`, from the index `x` on. -/
def parseLoop (v : Validation) : host → Nat → List Str → host
  | h, _, [] => h
  | h, x, seg :: rest => parseLoop v (parseStep v h x seg) (x + 1) rest

/-- `Parse`: the host after the call and the slice returned. -/
def host.Parse (v : Validation) (h : host) : host × List Connection :=
  let h' := parseLoop v h 0 (segments h.content)
  (h', h'.connections)

/-- `GetConnections`. -/
def host.GetConnections (h : host) : List Connection := h.connections

/-- `GetConnectionsCount`. -/
def host.GetConnectionsCount (h : host) : Nat := h.connections.length

/-- `GetContent`. -/
def host.GetContent (h : host) : Str := h.content

/-- `GetPath`. -/
def host.GetPath (h : host) : Str := h.path

/-! ## Definitions used to state the properties -/

/-- Acceptance by both validation predicates, as `Parse` tests it. -/
def Validation.passes (v : Validation) (c : Connection) : Bool :=
  v.IsAllowed c && v.IsWellConfigured c

/-- The records of a list of segments that pass validation, in order. -/
def retained (v : Validation) (segs : List Str) : List Connection :=
  (segs.map ParseRow).filter v.passes

/-- A call on a host: `ReadFile`, with the answer of the file system at
that time, or `Parse`. -/
inductive Call where
  | readFile (answer : Str → Option Str)
  | parse

/-- A sequence of calls on a host: the host at the end and the slices the
`Parse` calls returned, in order. -/
def run (v : Validation) : host → List Call → host × List (List Connection)
  | h, [] => (h, [])
  | h, Call.readFile answer :: calls => run v (h.ReadFile answer) calls
  | h, Call.parse :: calls =>
    let r := h.Parse v
    let rest := run v r.1 calls
    (rest.1, r.2 :: rest.2)

/-- A freshly constructed host whose `ReadFile` succeeded with `content`. -/
def loaded (path content : Str) : host :=
  (NewHost path).ReadFile (fun _ => some content)

/-- A validation that accepts every record. -/
def acceptAll : Validation := ⟨fun _ => true, fun _ => true⟩

/-- The sample file of the specification. -/
def sampleContent : Str :=
  "Host web\n  HostName 1.2.3.4\n  User admin\n  Port 22\n".toList

/-- The record of the sample file. -/
def sampleConnection : Connection :=
  { Name := "web".toList, Hostname := "1.2.3.4".toList, User := "admin".toList,
    Port := "22".toList, IdentityFile := [] }

/-- A file with two host blocks. -/
def twoBlocks : Str :=
  "Host a\n  HostName 10.0.0.1\nHost b\n  HostName 10.0.0.2\n".toList

/-- First block of `twoBlocks`, as `Parse` cuts it. -/
def blockA : Str := "Host a\n  HostName 10.0.0.1\n".toList

/-- Second block of `twoBlocks`, as `Parse` cuts it. -/
def blockB : Str := "Host b\n  HostName 10.0.0.2".toList

/-- The text `ParseRow` matches for a line: trimmed of spaces, then
lower-cased. -/
def rowOf (line : Str) : Str := ToLower (Trim line)

/-- The value extracted from the last of `lines` whose row begins with
`directive` followed by a space, and `dflt` when no line does. -/
def pick (directive : Str) (dflt : Str) (lines : List Str) : Str :=
  match ((lines.map rowOf).filter (fun row => (directive ++ [' ']).isPrefixOf row)).getLast? with
  | some row => getAttributeFromRow directive row
  | none => dflt

/-- Last assignment of `directive` in a block, as the specification words
it: the value extracted from the last line that begins with the directive
and a space, the empty string when there is none. -/
def lastAssigned (directive : Str) (hostRaw : Str) : Str :=
  pick directive [] (Split hostRaw ['\n'])

/-- A captured value: unchanged by lower-casing, without upper-case letter,
without leading and without trailing space. -/
def Captured (f : Str) : Prop :=
  ToLower f = f ∧ (∀ c ∈ f, c.isUpper = false) ∧ f.head? ≠ some ' ' ∧ f.getLast? ≠ some ' '

/-- A comment line: after its leading whitespace (the class `\s` of the
comment expression) it starts with `#`. -/
def isCommentLine (line : Str) : Bool :=
  (line.dropWhile isReSpace).head? == some '#'

/-- A blank line: whitespace of the class `\s` only (the empty line after a
final line feed is one). -/
def isBlankLine (line : Str) : Bool := line.all isReSpace

/-- Texts made of blank runs and comments only; the flag tells that the scan
is inside a comment. -/
def blankOrComment : Bool → Str → Bool
  | _, [] => true
  | false, c :: cs =>
    if c = '#' then blankOrComment true cs
    else if isReSpace c then blankOrComment false cs else false
  | true, c :: cs =>
    if c = '\n' then blankOrComment false cs else blankOrComment true cs

/-- The five directives `ParseRow` recognises, lower-cased. -/
def directives : List Str :=
  ["host".toList, "hostname".toList, "user".toList, "port".toList, "identityfile".toList]

/-- The field of a Connection that `ParseRow` assigns for a directive. -/
def fieldOf (directive : Str) (c : Connection) : Str :=
  if directive = "host".toList then c.Name
  else if directive = "hostname".toList then c.Hostname
  else if directive = "user".toList then c.User
  else if directive = "port".toList then c.Port
  else if directive = "identityfile".toList then c.IdentityFile
  else []

/-- Number of positions of `s` at which `pat` occurs. -/
def occurrences (pat : Str) : Str → Nat
  | [] => 0
  | c :: cs => (if pat.isPrefixOf (c :: cs) then 1 else 0) + occurrences pat cs

/-- A file of whitespace only. -/
def blankContent : Str := " \n\t  \r\n ".toList

/-- A file of comment lines only. -/
def commentContent : Str := "# disabled\n  # Host old\n\t#   HostName 10.0.0.1".toList

/-- A block with two `User` lines. -/
def twoUsers : Str := "Host web\n  User alice\n  User bob".toList

/-- A block without `HostName` line. -/
def noHostName : Str := "Host old\n  User bob\n  Port 22".toList

/-- A validation whose `IsWellConfigured` asks for a `Hostname`. -/
def needsHostname : Validation := ⟨fun _ => true, fun c => !c.Hostname.isEmpty⟩

/-- A block whose values contain the name of their directive. -/
def nestedNames : Str :=
  "Host webhost\n  HostName myhostname.com\n  User superuser".toList

/-- A file in which a value contains the marker `!!`. -/
def markerContent : Str := "Host web\n  HostName 1.2.3.4\n  User admin!!x\n".toList

/-! ## The loop of `Parse` -/

theorem parseStep_zero (v : Validation) (h : host) (seg : Str) :
    parseStep v h 0 seg = h := by
  simp [parseStep]

theorem parseStep_succ (v : Validation) (h : host) (x : Nat) (seg : Str) :
    parseStep v h (x + 1) seg =
      { h with connections := h.connections ++ retained v [seg] } := by
  cases ha : v.IsAllowed (ParseRow seg) <;> cases hw : v.IsWellConfigured (ParseRow seg) <;>
    simp [parseStep, retained, Validation.passes, ha, hw]

theorem parseLoop_succ (v : Validation) (segs : List Str) (h : host) (x : Nat) :
    parseLoop v h (x + 1) segs =
      { h with connections := h.connections ++ retained v segs } := by
  induction segs generalizing h x with
  | nil => simp [parseLoop, retained]
  | cons seg rest ih =>
    rw [parseLoop, parseStep_succ, ih]
    simp [retained, List.filter_cons]
    split <;> simp

theorem parseLoop_zero (v : Validation) (segs : List Str) (h : host) :
    parseLoop v h 0 segs =
      { h with connections := h.connections ++ retained v segs.tail } := by
  cases segs with
  | nil => simp [parseLoop, retained]
  | cons seg rest => rw [parseLoop, parseStep_zero, parseLoop_succ]; rfl

theorem Parse_connections (v : Validation) (h : host) :
    (h.Parse v).2 = h.connections ++ retained v (segments h.content).tail := by
  simp [host.Parse, parseLoop_zero]

theorem Parse_host (v : Validation) (h : host) :
    (h.Parse v).1 =
      { h with connections := h.connections ++ retained v (segments h.content).tail } := by
  simp [host.Parse, parseLoop_zero]

theorem mem_retained (v : Validation) (segs : List Str) (c : Connection)
    (hc : c ∈ retained v segs) : v.IsAllowed c = true ∧ v.IsWellConfigured c = true := by
  simp only [retained, List.mem_filter, Validation.passes, Bool.and_eq_true] at hc
  exact hc.2

theorem run_invariant (v : Validation) (calls : List Call) (h : host)
    (hinv : ∀ c ∈ h.connections, v.IsAllowed c = true ∧ v.IsWellConfigured c = true) :
    (∀ out ∈ (run v h calls).2, ∀ c ∈ out,
        v.IsAllowed c = true ∧ v.IsWellConfigured c = true) ∧
    ∀ c ∈ (run v h calls).1.connections,
        v.IsAllowed c = true ∧ v.IsWellConfigured c = true := by
  induction calls generalizing h with
  | nil => exact ⟨by simp [run], by simpa [run] using hinv⟩
  | cons call calls ih =>
    cases call with
    | readFile answer =>
      have hr : ∀ c ∈ (h.ReadFile answer).connections,
          v.IsAllowed c = true ∧ v.IsWellConfigured c = true := by
        unfold host.ReadFile
        split <;> simpa using hinv
      simpa [run] using ih _ hr
    | parse =>
      have hp : ∀ c ∈ (h.Parse v).2,
          v.IsAllowed c = true ∧ v.IsWellConfigured c = true := by
        intro c hc
        rw [Parse_connections, List.mem_append] at hc
        rcases hc with hc | hc
        · exact hinv c hc
        · exact mem_retained v _ c hc
      have hp1 : ∀ c ∈ (h.Parse v).1.connections,
          v.IsAllowed c = true ∧ v.IsWellConfigured c = true := by
        intro c hc
        apply hp
        simpa [Parse_host, Parse_connections] using hc
      have := ih _ hp1
      refine ⟨?_, ?_⟩
      · intro out hout
        simp only [run, List.mem_cons] at hout
        rcases hout with rfl | hout
        · exact hp
        · exact this.1 out hout
      · simpa [run] using this.2

theorem loaded_content (path content : Str) : (loaded path content).content = content := rfl
theorem loaded_connections (path content : Str) : (loaded path content).connections = [] := rfl

/-! ## `ParseRow`: one assignment per directive, the last one -/

theorem pick_cons (d dflt : Str) (l : Str) (ls : List Str) :
    pick d dflt (l :: ls) =
      pick d (if (d ++ [' ']).isPrefixOf (rowOf l) then getAttributeFromRow d (rowOf l)
        else dflt) ls := by
  unfold pick
  simp only [List.map_cons, List.filter_cons]
  by_cases h : (d ++ [' ']).isPrefixOf (rowOf l) = true
  · simp only [h, if_true]
    cases hl : (List.filter (fun row => (d ++ [' ']).isPrefixOf row) (List.map rowOf ls)).getLast? with
    | none =>
      have : List.filter (fun row => (d ++ [' ']).isPrefixOf row) (List.map rowOf ls) = [] := by
        simpa using hl
      simp [this]
    | some r =>
      rw [List.getLast?_cons, hl]
      simp
  · simp [h]

theorem assign_shape (c : Connection) (b1 b2 b3 b4 b5 : Bool) (v1 v2 v3 v4 v5 : Str) :
    (let connection := if b1 = true then { c with Hostname := v1 } else c
     let connection := if b2 = true then { connection with User := v2 } else connection
     let connection := if b3 = true then { connection with Port := v3 } else connection
     let connection :=
       if b4 = true then { connection with IdentityFile := v4 } else connection
     let connection := if b5 = true then { connection with Name := v5 } else connection
     connection) =
      { Name := if b5 = true then v5 else c.Name,
        Hostname := if b1 = true then v1 else c.Hostname,
        User := if b2 = true then v2 else c.User,
        Port := if b3 = true then v3 else c.Port,
        IdentityFile := if b4 = true then v4 else c.IdentityFile } := by
  cases c
  cases b1 <;> cases b2 <;> cases b3 <;> cases b4 <;> cases b5 <;> rfl

theorem parseLine_eq (c : Connection) (l : Str) :
    parseLine c l =
      { Name := if ("host".toList ++ [' ']).isPrefixOf (rowOf l) then
          getAttributeFromRow "host".toList (rowOf l) else c.Name,
        Hostname := if ("hostname".toList ++ [' ']).isPrefixOf (rowOf l) then
          getAttributeFromRow "hostname".toList (rowOf l) else c.Hostname,
        User := if ("user".toList ++ [' ']).isPrefixOf (rowOf l) then
          getAttributeFromRow "user".toList (rowOf l) else c.User,
        Port := if ("port".toList ++ [' ']).isPrefixOf (rowOf l) then
          getAttributeFromRow "port".toList (rowOf l) else c.Port,
        IdentityFile := if ("identityfile".toList ++ [' ']).isPrefixOf (rowOf l) then
          getAttributeFromRow "identityfile".toList (rowOf l) else c.IdentityFile } := by
  unfold parseLine rowOf
  show (if ToLower (Trim l) = [] then c else _) = _
  generalize ToLower (Trim l) = r
  by_cases h : r = []
  · subst h
    cases c
    rfl
  · simp only [if_neg h]
    exact assign_shape c _ _ _ _ _ _ _ _ _ _

theorem foldl_parseLine (lines : List Str) (c : Connection) :
    lines.foldl parseLine c =
      { Name := pick "host".toList c.Name lines,
        Hostname := pick "hostname".toList c.Hostname lines,
        User := pick "user".toList c.User lines,
        Port := pick "port".toList c.Port lines,
        IdentityFile := pick "identityfile".toList c.IdentityFile lines } := by
  induction lines generalizing c with
  | nil => simp [pick]
  | cons l ls ih =>
    rw [List.foldl_cons, ih, parseLine_eq]
    simp only [pick_cons]

theorem ParseRow_eq (hostRaw : Str) :
    ParseRow hostRaw =
      { Name := lastAssigned "host".toList hostRaw,
        Hostname := lastAssigned "hostname".toList hostRaw,
        User := lastAssigned "user".toList hostRaw,
        Port := lastAssigned "port".toList hostRaw,
        IdentityFile := lastAssigned "identityfile".toList hostRaw } := by
  unfold ParseRow lastAssigned
  rw [foldl_parseLine]

theorem pick_none (d dflt : Str) (lines : List Str)
    (h : ∀ l ∈ lines, (d ++ [' ']).isPrefixOf (rowOf l) = false) : pick d dflt lines = dflt := by
  unfold pick
  have : List.filter (fun row => (d ++ [' ']).isPrefixOf row) (List.map rowOf lines) = [] := by
    simp only [List.filter_eq_nil_iff, List.mem_map]
    rintro _ ⟨l, hl, rfl⟩
    simp [h l hl]
  simp [this]

/-! ## Captured values -/

theorem toLower_fix (c : Char) : c.toLower.toLower = c.toLower ∧ c.toLower.isUpper = false := by
  by_cases h : c.toNat ≥ 65 ∧ c.toNat ≤ 90
  · have hc : c = Char.ofNat c.toNat := (Char.ofNat_toNat c).symm
    obtain ⟨h1, h2⟩ := h
    generalize c.toNat = n at hc h1 h2
    subst hc
    interval_cases n <;> decide
  · have : c.toLower = c := by
      unfold Char.toLower
      simp only [h, if_false]
    rw [this]
    refine ⟨this, ?_⟩
    unfold Char.isUpper
    simp only [Char.toNat, ge_iff_le] at h
    simp only [ge_iff_le, Bool.and_eq_false_imp, decide_eq_true_eq, decide_eq_false_iff_not]
    intro h1 h2
    exact h ⟨h1, h2⟩

theorem replaceFrom_nil_sublist (pat : Str) (s : Str) (k : Nat) :
    (replaceFrom pat [] k s).Sublist s := by
  induction s generalizing k with
  | nil => cases k <;> simp [replaceFrom]
  | cons c cs ih =>
    cases k with
    | succ k => simpa [replaceFrom] using (ih k).cons c
    | zero =>
      simp only [replaceFrom]
      split
      · simpa using (ih _).cons c
      · exact (ih 0).cons₂ c

theorem trimBoth_sublist (p : Char → Bool) (s : Str) : (trimBoth p s).Sublist s := by
  unfold trimBoth
  have h1 : ((s.dropWhile p).reverse.dropWhile p).Sublist (s.dropWhile p).reverse :=
    List.dropWhile_sublist p
  have h2 := List.reverse_sublist.mpr h1
  rw [List.reverse_reverse] at h2
  exact h2.trans (List.dropWhile_sublist p)

theorem trimBoth_getLast? (p : Char → Bool) (s : Str) (c : Char)
    (h : (trimBoth p s).getLast? = some c) : p c = false := by
  unfold trimBoth at h
  rw [List.getLast?_reverse] at h
  have := List.head?_dropWhile_not p (s.dropWhile p).reverse
  rw [h] at this
  exact this

theorem trimBoth_initial (p : Char → Bool) (s : Str) : trimBoth p s <+: s.dropWhile p := by
  unfold trimBoth
  have : (s.dropWhile p).reverse.dropWhile p <:+ (s.dropWhile p).reverse :=
    List.dropWhile_suffix p
  have h2 := List.reverse_prefix.mpr this
  rwa [List.reverse_reverse] at h2

theorem trimBoth_head? (p : Char → Bool) (s : Str) (c : Char)
    (h : (trimBoth p s).head? = some c) : p c = false := by
  obtain ⟨t, ht⟩ := trimBoth_initial p s
  cases hx : trimBoth p s with
  | nil => rw [hx] at h; simp at h
  | cons x xs =>
    rw [hx] at h ht
    simp only [List.head?_cons, Option.some.injEq] at h
    subst h
    have := List.head?_dropWhile_not p s
    rw [← ht] at this
    simpa using this

theorem ToLower_mem (s : Str) (c : Char) (h : c ∈ ToLower s) :
    c.toLower = c ∧ c.isUpper = false := by
  simp only [ToLower, List.mem_map] at h
  obtain ⟨a, _, rfl⟩ := h
  exact toLower_fix a

theorem captured_nil : Captured [] := by
  simp [Captured, ToLower]

theorem captured_getAttribute (d l : Str) : Captured (getAttributeFromRow d (rowOf l)) := by
  have hsub : (getAttributeFromRow d (rowOf l)).Sublist (ToLower (Trim l)) :=
    (trimBoth_sublist _ _).trans (replaceFrom_nil_sublist d _ 0)
  have hmem : ∀ c ∈ getAttributeFromRow d (rowOf l), c.toLower = c ∧ c.isUpper = false :=
    fun c hc => ToLower_mem _ c (hsub.subset hc)
  refine ⟨?_, fun c hc => (hmem c hc).2, ?_, ?_⟩
  · unfold ToLower
    conv_rhs => rw [← List.map_id (getAttributeFromRow d (rowOf l))]
    exact List.map_congr_left (fun c hc => (hmem c hc).1)
  · intro h
    have := trimBoth_head? _ _ _ h
    simp at this
  · intro h
    have := trimBoth_getLast? _ _ _ h
    simp at this

theorem captured_pick (d : Str) (lines : List Str) : Captured (pick d [] lines) := by
  unfold pick
  split
  · rename_i row hrow
    have hmem := List.mem_of_getLast?_eq_some hrow
    simp only [List.mem_filter, List.mem_map] at hmem
    obtain ⟨⟨l, _, rfl⟩, _⟩ := hmem
    exact captured_getAttribute d l
  · exact captured_nil

/-! ## Texts without host block -/

theorem Split_newline_cons (c : Char) (cs : Str) :
    Split (c :: cs) ['\n'] =
      if c = '\n' then [] :: Split cs ['\n']
      else ((c :: (Split cs ['\n']).headD []) :: (Split cs ['\n']).tail) := by
  unfold Split
  by_cases h : c = '\n'
  · subst h
    simp [splitFrom]
  · have hp : List.isPrefixOf ['\n'] (c :: cs) = false := by
      simp [List.isPrefixOf, Ne.symm h]
    simp only [splitFrom, hp, if_neg h]
    cases splitFrom ['\n'] 0 cs <;> simp

theorem splitFrom_ne_nil (sep : Str) (k : Nat) (s : Str) : splitFrom sep k s ≠ [] := by
  induction s generalizing k with
  | nil => cases k <;> simp [splitFrom]
  | cons c cs ih =>
    cases k with
    | succ k => simpa [splitFrom] using ih k
    | zero =>
      simp only [splitFrom]
      split
      · simp
      · split <;> simp

theorem Split_newline_eq (cs : Str) :
    (Split cs ['\n']).headD [] :: (Split cs ['\n']).tail = Split cs ['\n'] := by
  have := splitFrom_ne_nil ['\n'] 0 cs
  unfold Split
  cases h : splitFrom ['\n'] 0 cs with
  | nil => exact absurd h this
  | cons a b => rfl

theorem isCommentLine_cons (c : Char) (l : Str) (hc : c ≠ '#')
    (h : (isCommentLine (c :: l) || isBlankLine (c :: l)) = true) :
    isReSpace c = true ∧ (isCommentLine l || isBlankLine l) = true := by
  unfold isCommentLine isBlankLine at h ⊢
  by_cases hs : isReSpace c = true
  · refine ⟨hs, ?_⟩
    simpa [List.dropWhile_cons, hs] using h
  · simp [List.dropWhile_cons, hs, hc] at h

theorem lines_blankOrComment (s : Str) :
    ((∀ line ∈ Split s ['\n'], (isCommentLine line || isBlankLine line) = true) →
      blankOrComment false s = true) ∧
    ((∀ line ∈ (Split s ['\n']).tail, (isCommentLine line || isBlankLine line) = true) →
      blankOrComment true s = true) := by
  induction s with
  | nil => exact ⟨fun _ => rfl, fun _ => rfl⟩
  | cons c cs ih =>
    rw [Split_newline_cons]
    by_cases hn : c = '\n'
    · subst hn
      simp only [if_true]
      refine ⟨fun H => ?_, fun H => ?_⟩
      · have : blankOrComment false ('\n' :: cs) = blankOrComment false cs := rfl
        rw [this]
        exact ih.1 (fun line hl => H line (List.mem_cons_of_mem _ hl))
      · simpa [blankOrComment] using ih.1 H
    · simp only [if_neg hn]
      refine ⟨fun H => ?_, fun H => ?_⟩
      · by_cases hh : c = '#'
        · subst hh
          simp only [blankOrComment, if_true]
          exact ih.2 (fun line hl => H line (List.mem_cons_of_mem _ hl))
        · obtain ⟨hs, hl0⟩ := isCommentLine_cons c _ hh (H _ (List.mem_cons_self _ _))
          simp only [blankOrComment, if_neg hh, hs, if_true]
          apply ih.1
          rw [← Split_newline_eq]
          intro line hl
          rcases List.mem_cons.mp hl with rfl | hl
          · exact hl0
          · exact H line (List.mem_cons_of_mem _ hl)
      · simp only [blankOrComment, if_neg hn]
        exact ih.2 H

theorem isSpace_of_isReSpace (c : Char) (h : isReSpace c = true) : isSpace c = true := by
  simp only [isReSpace, Bool.or_eq_true, beq_iff_eq] at h
  rcases h with (((h | h) | h) | h) | h <;> subst h <;> decide

theorem blankOrComment_cons_space (c : Char) (cs : Str) (hc : isSpace c = true)
    (h : blankOrComment false (c :: cs) = true) :
    isReSpace c = true ∧ blankOrComment false cs = true := by
  have hh : c ≠ '#' := by
    rintro rfl
    exact absurd hc (by decide)
  simp only [blankOrComment, if_neg hh] at h
  by_cases hs : isReSpace c = true
  · exact ⟨hs, by simpa [hs] using h⟩
  · simp [hs] at h

theorem blankOrComment_dropWhile (s : Str) (h : blankOrComment false s = true) :
    blankOrComment false (s.dropWhile isSpace) = true := by
  induction s with
  | nil => rfl
  | cons c cs ih =>
    by_cases hc : isSpace c = true
    · rw [List.dropWhile_cons_of_pos hc]
      exact ih (blankOrComment_cons_space c cs hc h).2
    · rw [List.dropWhile_cons_of_neg hc]
      exact h

theorem blankOrComment_initial (a x : Str) (b : Bool) (h : blankOrComment b (a ++ x) = true) :
    blankOrComment b a = true := by
  induction a generalizing b with
  | nil => cases b <;> rfl
  | cons c cs ih =>
    cases b with
    | false =>
      simp only [List.cons_append, blankOrComment] at h ⊢
      split at h
      · rename_i hc
        simp only [hc, if_true]
        exact ih _ h
      · rename_i hc
        simp only [if_neg hc]
        split at h
        · rename_i hs
          simp only [hs, if_true]
          exact ih _ h
        · simp at h
    | true =>
      simp only [List.cons_append, blankOrComment] at h ⊢
      split at h
      · rename_i hc
        simp only [hc, if_true]
        exact ih _ h
      · rename_i hc
        simp only [if_neg hc]
        exact ih _ h

theorem blankOrComment_TrimSpace (s : Str) (h : blankOrComment false s = true) :
    blankOrComment false (TrimSpace s) = true := by
  obtain ⟨t, ht⟩ := trimBoth_initial isSpace s
  have := blankOrComment_dropWhile s h
  rw [← ht] at this
  exact blankOrComment_initial _ _ _ this

theorem stripFrom_sublist (s : Str) (st : Scan) : (stripFrom st s).Sublist s := by
  induction s generalizing st with
  | nil => cases st <;> simp [stripFrom]
  | cons c cs ih =>
    cases st <;> simp only [stripFrom]
    · split
      · split
        · exact (ih _).cons c
        · exact (ih _).cons c
      · exact (ih _).cons₂ c
    · exact (ih _).cons₂ c
    · split
      · exact (ih _).cons c
      · exact (ih _).cons c
    · split
      · exact (ih _).cons₂ c
      · exact (ih _).cons c

theorem startsComment_cons (c : Char) (cs : Str) (hs : isReSpace c = true) :
    startsComment (c :: cs) = startsComment cs := by
  simp [startsComment, List.dropWhile_cons, hs]

theorem startsComment_hash (cs : Str) : startsComment ('#' :: cs) = true := by
  have : isReSpace '#' = false := by decide
  simp [startsComment, List.dropWhile_cons, this]

theorem blank_of_not_startsComment (s : Str) (h : blankOrComment false s = true)
    (hn : startsComment s = false) : ∀ c ∈ s, isReSpace c = true := by
  induction s with
  | nil => simp
  | cons c cs ih =>
    by_cases hh : c = '#'
    · subst hh
      rw [startsComment_hash] at hn
      exact absurd hn (by simp)
    · simp only [blankOrComment, if_neg hh] at h
      by_cases hs : isReSpace c = true
      · simp only [hs, if_true] at h
        rw [startsComment_cons c cs hs] at hn
        intro x hx
        rcases List.mem_cons.mp hx with rfl | hx
        · exact hs
        · exact ih h hn x hx
      · simp [hs] at h

theorem stripFrom_blank (s : Str) :
    (blankOrComment false s = true → ∀ c ∈ stripFrom Scan.bol s, isReSpace c = true) ∧
    (blankOrComment false s = true → startsComment s = true →
      ∀ c ∈ stripFrom Scan.blank s, isReSpace c = true) ∧
    (blankOrComment true s = true → ∀ c ∈ stripFrom Scan.comment s, isReSpace c = true) := by
  induction s with
  | nil => simp [stripFrom]
  | cons c cs ih =>
    obtain ⟨ihb, ihw, ihc⟩ := ih
    have hblank : blankOrComment false (c :: cs) = true → startsComment (c :: cs) = true →
        ∀ x ∈ (if c = '#' then stripFrom Scan.comment cs else stripFrom Scan.blank cs),
          isReSpace x = true := by
      intro h hsc
      by_cases hh : c = '#'
      · subst hh
        simp only [blankOrComment, if_true] at h ⊢
        exact ihc h
      · simp only [blankOrComment, if_neg hh] at h ⊢
        by_cases hs : isReSpace c = true
        · simp only [hs, if_true] at h
          rw [startsComment_cons c cs hs] at hsc
          exact ihw h hsc
        · simp [hs] at h
    refine ⟨?_, ?_, ?_⟩
    · intro h
      by_cases hsc : startsComment (c :: cs) = true
      · simp only [stripFrom, hsc, if_true]
        exact hblank h hsc
      · have hall := blank_of_not_startsComment _ h (by simpa using hsc)
        intro x hx
        exact hall x ((stripFrom_sublist _ _).subset hx)
    · intro h hsc
      simp only [stripFrom]
      exact hblank h hsc
    · intro h
      simp only [stripFrom]
      simp only [blankOrComment] at h
      by_cases hn : c = '\n'
      · subst hn
        simp only [if_true] at h ⊢
        intro x hx
        rcases List.mem_cons.mp hx with rfl | hx
        · decide
        · exact ihb h x hx
      · simp only [if_neg hn] at h ⊢
        exact ihc h

theorem squeezeFrom_mem (s : Str) (b : Bool) (c : Char) (h : c ∈ squeezeFrom b s) :
    c = '\n' ∨ c ∈ s := by
  induction s generalizing b with
  | nil => cases b <;> simp [squeezeFrom] at h
  | cons a as ih =>
    simp only [squeezeFrom] at h
    split at h
    · split at h
      · rcases ih _ h with h | h
        · exact Or.inl h
        · exact Or.inr (List.mem_cons_of_mem _ h)
      · rcases List.mem_cons.mp h with h | h
        · exact Or.inl h
        · rcases ih _ h with h | h
          · exact Or.inl h
          · exact Or.inr (List.mem_cons_of_mem _ h)
    · rcases List.mem_cons.mp h with h | h
      · exact Or.inr (h ▸ List.mem_cons_self _ _)
      · rcases ih _ h with h | h
        · exact Or.inl h
        · exact Or.inr (List.mem_cons_of_mem _ h)

theorem replaceFrom_absent (p : Char) (ps rep s : Str) (h : ∀ c ∈ s, c ≠ p) :
    replaceFrom (p :: ps) rep 0 s = s := by
  induction s with
  | nil => rfl
  | cons c cs ih =>
    have hc : (p == c) = false := by
      simpa using (h c (List.mem_cons_self _ _)).symm
    simp only [replaceFrom, List.isPrefixOf, hc, Bool.false_and]
    simp [ih (fun x hx => h x (List.mem_cons_of_mem _ hx))]

theorem splitFrom_absent (p : Char) (ps s : Str) (h : ∀ c ∈ s, c ≠ p) :
    splitFrom (p :: ps) 0 s = [s] := by
  induction s with
  | nil => rfl
  | cons c cs ih =>
    have hc : (p == c) = false := by
      simpa using (h c (List.mem_cons_self _ _)).symm
    simp only [splitFrom, List.isPrefixOf, hc, Bool.false_and]
    simp [ih (fun x hx => h x (List.mem_cons_of_mem _ hx))]

theorem segments_of_blank (content : Str)
    (h : ∀ c ∈ normalize content, isReSpace c = true) : segments content = [normalize content] := by
  unfold segments ReplaceAll Split
  have h1 : replaceFrom "Host ".toList "!!Host ".toList 0 (normalize content) =
      normalize content := by
    apply replaceFrom_absent 'H' "ost ".toList
    intro c hc hH
    have := h c hc
    rw [hH] at this
    exact absurd this (by decide)
  rw [h1]
  apply splitFrom_absent '!' ['!']
  intro c hc hH
  have := h c hc
  rw [hH] at this
  exact absurd this (by decide)

theorem normalize_blank (content : Str) (h : blankOrComment false content = true) :
    ∀ c ∈ normalize content, isReSpace c = true := by
  intro c hc
  unfold normalize squeezeBreaks stripComments at hc
  rcases squeezeFrom_mem _ _ _ hc with rfl | hc
  · decide
  · exact (stripFrom_blank _).1 (blankOrComment_TrimSpace _ h) c hc

theorem blankOrComment_of_spaces (content : Str) (h : ∀ c ∈ content, isSpace c = true) :
    ∀ c ∈ normalize content, isReSpace c = true := by
  have : TrimSpace content = [] := by
    unfold TrimSpace trimBoth
    have : content.dropWhile isSpace = [] := by
      rw [List.dropWhile_eq_nil_iff]
      exact h
    rw [this]
    rfl
  unfold normalize
  rw [this]
  intro c hc
  simp [stripComments, stripFrom, squeezeBreaks, squeezeFrom] at hc

theorem Parse_of_blank (v : Validation) (path content : Str)
    (h : ∀ c ∈ normalize content, isReSpace c = true) :
    ((loaded path content).Parse v).2 = [] := by
  rw [Parse_connections, loaded_content, loaded_connections, segments_of_blank content h]
  rfl

/-! ## Where extraction and split are exact -/

theorem replaceFrom_drop (pat rep s : Str) (k : Nat) :
    replaceFrom pat rep k s = replaceFrom pat rep 0 (s.drop k) := by
  induction s generalizing k with
  | nil => cases k <;> simp [replaceFrom]
  | cons c cs ih =>
    cases k with
    | zero => rfl
    | succ k => simpa [replaceFrom] using ih k

theorem replaceFrom_match (p : Char) (ps rep s : Str) :
    replaceFrom (p :: ps) rep 0 ((p :: ps) ++ s) = rep ++ replaceFrom (p :: ps) rep 0 s := by
  have hp : (p :: ps).isPrefixOf (p :: (ps ++ s)) = true := by
    rw [← List.cons_append, List.isPrefixOf_iff_prefix]
    exact List.prefix_append _ _
  rw [List.cons_append, replaceFrom, if_pos hp, replaceFrom_drop]
  simp

theorem replaceFrom_no_infix (pat rep s : Str) (h : ¬ pat <:+: s) :
    replaceFrom pat rep 0 s = s := by
  induction s with
  | nil => rfl
  | cons c cs ih =>
    have hp : pat.isPrefixOf (c :: cs) = false := by
      cases hb : pat.isPrefixOf (c :: cs) with
      | false => rfl
      | true => exact absurd (List.isPrefixOf_iff_prefix.mp hb).isInfix h
    have hcs : ¬ pat <:+: cs := fun hi => h (hi.trans (List.suffix_cons c cs).isInfix)
    simp [replaceFrom, hp, ih hcs]

theorem trimBoth_id (p : Char → Bool) (s : Str)
    (hh : ∀ c, s.head? = some c → p c = false) (hl : ∀ c, s.getLast? = some c → p c = false) :
    trimBoth p s = s := by
  unfold trimBoth
  have h1 : s.dropWhile p = s := by
    cases s with
    | nil => rfl
    | cons a as =>
      have := hh a rfl
      simp [List.dropWhile_cons, this]
  rw [h1]
  have h2 : s.reverse.dropWhile p = s.reverse := by
    cases hr : s.reverse with
    | nil => rfl
    | cons a as =>
      have : s.getLast? = some a := by
        rw [← List.head?_reverse, hr]
        rfl
      have := hl a this
      simp [List.dropWhile_cons, this]
  rw [h2, List.reverse_reverse]

theorem lastAssigned_line (d v : Str) (p : Char) (ps : Str) (hd : d = p :: ps)
    (hdl : ToLower d = d) (hdn : '\n' ∉ d) (hds : ' ' ∉ d)
    (hv : v ≠ []) (hlow : ToLower v = v) (hnl : '\n' ∉ v)
    (hhead : v.head? ≠ some ' ') (hlast : v.getLast? ≠ some ' ')
    (hfree : ¬ d <:+: v) :
    lastAssigned d (d ++ ' ' :: v) = v := by
  have hsplit : Split (d ++ ' ' :: v) ['\n'] = [d ++ ' ' :: v] := by
    apply splitFrom_absent '\n' []
    intro c hc
    rcases List.mem_append.mp hc with hc | hc
    · rintro rfl; exact hdn hc
    · rcases List.mem_cons.mp hc with rfl | hc
      · decide
      · rintro rfl; exact hnl hc
  have hp : p ≠ ' ' := by
    rintro rfl
    exact hds (hd ▸ List.mem_cons_self _ _)
  have htrimv : Trim v = v := by
    apply trimBoth_id
    · intro c hc
      have : c ≠ ' ' := by rintro rfl; exact hhead hc
      simpa using this
    · intro c hc
      have : c ≠ ' ' := by rintro rfl; exact hlast hc
      simpa using this
  have htrim : Trim (d ++ ' ' :: v) = d ++ ' ' :: v := by
    apply trimBoth_id
    · intro c hc
      rw [hd] at hc
      simp only [List.cons_append, List.head?_cons, Option.some.injEq] at hc
      subst hc
      simpa using hp
    · intro c hc
      have hne : (' ' :: v) ≠ [] := by simp
      rw [List.getLast?_append_of_ne_nil _ hne] at hc
      have hvv : (' ' :: v).getLast? = v.getLast? := by
        cases v with
        | nil => exact absurd rfl hv
        | cons x xs => exact List.getLast?_cons_cons
      rw [hvv] at hc
      have : c ≠ ' ' := by rintro rfl; exact hlast hc
      simpa using this
  have hrow : rowOf (d ++ ' ' :: v) = d ++ ' ' :: v := by
    unfold rowOf
    rw [htrim]
    unfold ToLower at hdl hlow ⊢
    rw [List.map_append, List.map_cons, hdl, hlow]
    rfl
  have hpre : (d ++ [' ']).isPrefixOf (d ++ ' ' :: v) = true := by
    rw [List.isPrefixOf_iff_prefix]
    exact ⟨v, by simp⟩
  have hfree2 : ¬ d <:+: ' ' :: v := by
    rw [List.infix_cons_iff]
    rintro (h | h)
    · rw [hd] at h
      obtain ⟨t, ht⟩ := h
      simp only [List.cons_append, List.cons.injEq] at ht
      exact hp ht.1
    · exact hfree h
  have hget : getAttributeFromRow d (d ++ ' ' :: v) = v := by
    unfold getAttributeFromRow ReplaceAll
    rw [hd, replaceFrom_match, ← hd, replaceFrom_no_infix _ _ _ hfree2, List.nil_append]
    have : Trim (' ' :: v) = Trim v := by
      unfold Trim trimBoth
      rw [List.dropWhile_cons_of_pos (by simp)]
    rw [this, htrimv]
  unfold lastAssigned pick
  rw [hsplit]
  simp only [List.map_cons, List.map_nil, hrow, List.filter_cons, hpre, if_true,
    List.filter_nil, List.getLast?_singleton]
  exact hget

/-- Where the extraction is exact: for a line made of a directive, a space
and a non-empty lower-case value without line feed, without leading or
trailing space, in which the name of the directive does not occur,
`ParseRow` assigns exactly the value. -/
theorem value_kept (d v : Str) (hd : d ∈ directives)
    (hv : v ≠ []) (hlow : ToLower v = v) (hnl : '\n' ∉ v)
    (hhead : v.head? ≠ some ' ') (hlast : v.getLast? ≠ some ' ')
    (hfree : ¬ d <:+: v) :
    fieldOf d (ParseRow (d ++ ' ' :: v)) = v := by
  rw [ParseRow_eq]
  simp only [directives, List.mem_cons, List.mem_singleton, List.not_mem_nil, or_false] at hd
  rcases hd with rfl | rfl | rfl | rfl | rfl
  · exact lastAssigned_line _ v _ _ rfl (by decide) (by decide) (by decide) hv hlow hnl
      hhead hlast hfree
  · exact lastAssigned_line _ v _ _ rfl (by decide) (by decide) (by decide) hv hlow hnl
      hhead hlast hfree
  · exact lastAssigned_line _ v _ _ rfl (by decide) (by decide) (by decide) hv hlow hnl
      hhead hlast hfree
  · exact lastAssigned_line _ v _ _ rfl (by decide) (by decide) (by decide) hv hlow hnl
      hhead hlast hfree
  · exact lastAssigned_line _ v _ _ rfl (by decide) (by decide) (by decide) hv hlow hnl
      hhead hlast hfree

/-- The extraction at `hostname example.com`. -/
theorem value_kept_witness :
    fieldOf "hostname".toList (ParseRow "hostname example.com".toList) = "example.com".toList :=
  value_kept "hostname".toList "example.com".toList (by decide) (by decide) (by decide)
    (by decide) (by decide) (by decide) (by decide)

theorem splitFrom_cons_ne (p c : Char) (ps s : Str) (h : c ≠ p) :
    splitFrom (p :: ps) 0 (c :: s) =
      (c :: (splitFrom (p :: ps) 0 s).headD []) :: (splitFrom (p :: ps) 0 s).tail := by
  have hc : (p == c) = false := by simpa using h.symm
  simp only [splitFrom, List.isPrefixOf, hc, Bool.false_and]
  cases splitFrom (p :: ps) 0 s <;> simp

theorem splitFrom_marker (s : Str) :
    splitFrom "!!".toList 0 ("!!Host ".toList ++ s) =
      [] :: ("Host ".toList ++ (splitFrom "!!".toList 0 s).headD []) ::
        (splitFrom "!!".toList 0 s).tail := by
  show splitFrom ['!', '!'] 0 ('!' :: '!' :: 'H' :: 'o' :: 's' :: 't' :: ' ' :: s) = _
  have h1 : List.isPrefixOf ['!', '!'] ('!' :: '!' :: 'H' :: 'o' :: 's' :: 't' :: ' ' :: s)
      = true := by simp [List.isPrefixOf]
  rw [splitFrom, if_pos h1]
  show [] :: splitFrom ['!', '!'] 0 ('H' :: 'o' :: 's' :: 't' :: ' ' :: s) = _
  rw [splitFrom_cons_ne '!' 'H' _ _ (by decide), splitFrom_cons_ne '!' 'o' _ _ (by decide),
    splitFrom_cons_ne '!' 's' _ _ (by decide), splitFrom_cons_ne '!' 't' _ _ (by decide),
    splitFrom_cons_ne '!' ' ' _ _ (by decide)]
  rfl

theorem occurrences_marker (s : Str) :
    occurrences "Host ".toList ("Host ".toList ++ s) = 1 + occurrences "Host ".toList s := by
  show occurrences ['H', 'o', 's', 't', ' '] ('H' :: 'o' :: 's' :: 't' :: ' ' :: s) = _
  simp [occurrences, List.isPrefixOf]

theorem marked_split (t : Str) : ∀ k : Nat, '!' ∉ t.drop k →
    (∀ seg ∈ (Split (ReplaceAll "Host ".toList "!!Host ".toList (t.drop k)) "!!".toList).tail,
      "Host ".toList <+: seg) ∧
    (Split (ReplaceAll "Host ".toList "!!Host ".toList (t.drop k)) "!!".toList).tail.length =
      occurrences "Host ".toList (t.drop k) := by
  induction t with
  | nil =>
    intro k _
    simp [Split, ReplaceAll, replaceFrom, splitFrom, occurrences]
  | cons c cs ih =>
    intro k hk
    cases k with
    | succ k => simpa using ih k (by simpa using hk)
    | zero =>
      simp only [List.drop_zero] at hk ⊢
      unfold Split ReplaceAll
      by_cases hp : List.isPrefixOf "Host ".toList (c :: cs) = true
      · obtain ⟨rest, hrest⟩ := List.isPrefixOf_iff_prefix.mp hp
        have hcs : cs.drop 4 = rest := by
          have : c :: cs = 'H' :: 'o' :: 's' :: 't' :: ' ' :: rest := hrest.symm
          simp only [List.cons.injEq] at this
          rw [this.2]
          rfl
        have hnot : '!' ∉ cs.drop 4 := fun hm =>
          hk (List.mem_cons_of_mem _ (List.mem_of_mem_drop hm))
        have := ih 4 hnot
        rw [hcs] at this
        unfold Split ReplaceAll at this
        rw [← hrest]
        have hm := replaceFrom_match 'H' "ost ".toList "!!Host ".toList rest
        have hm2 : replaceFrom "Host ".toList "!!Host ".toList 0 ("Host ".toList ++ rest) =
            "!!Host ".toList ++ replaceFrom "Host ".toList "!!Host ".toList 0 rest := hm
        rw [hm2, splitFrom_marker, occurrences_marker]
        refine ⟨?_, ?_⟩
        · intro seg hseg
          simp only [List.tail_cons, List.mem_cons] at hseg
          rcases hseg with rfl | hseg
          · exact List.prefix_append _ _
          · exact this.1 seg hseg
        · simp only [List.tail_cons, List.length_cons]
          rw [this.2]
          omega
      · have hc : c ≠ '!' := fun h => hk (h ▸ List.mem_cons_self _ _)
        have hnot : '!' ∉ cs.drop 0 := fun hm => hk (List.mem_cons_of_mem _ (by simpa using hm))
        have := ih 0 hnot
        simp only [List.drop_zero] at this
        unfold Split ReplaceAll at this
        have hp2 : List.isPrefixOf "Host ".toList (c :: cs) = false :=
          Bool.eq_false_iff.mpr hp
        have hs := splitFrom_cons_ne '!' c ['!']
          (replaceFrom "Host ".toList "!!Host ".toList 0 cs) hc
        have hs2 : splitFrom "!!".toList 0
            (c :: replaceFrom "Host ".toList "!!Host ".toList 0 cs) = _ := hs
        rw [replaceFrom, if_neg hp, hs2]
        simp only [List.tail_cons, occurrences, hp2]
        exact ⟨this.1, by simpa using this.2⟩

/-- Where the split is exact: when the normalized text holds no `!`, every
segment after the first begins with `Host ` and there are as many of them as
occurrences of `Host ` in the normalized text. -/
theorem marker_free_split (content : Str) (h : '!' ∉ normalize content) :
    (∀ seg ∈ (segments content).tail, "Host ".toList <+: seg) ∧
    (segments content).tail.length = occurrences "Host ".toList (normalize content) := by
  have := marked_split (normalize content) 0 (by simpa using h)
  simpa [segments] using this

/-- The split of the two-block file. -/
theorem marker_free_split_witness :
    (∀ seg ∈ (segments twoBlocks).tail, "Host ".toList <+: seg) ∧
    (segments twoBlocks).tail.length = occurrences "Host ".toList (normalize twoBlocks) :=
  marker_free_split twoBlocks (by decide)

/-! ## The claims -/

/-- C1: on a host built by `NewHost`, after any sequence of `ReadFile` and
`Parse` calls, every Connection in every slice returned by `Parse` and in
the slice `GetConnections` returns satisfies `IsAllowed` and
`IsWellConfigured`, whatever the two predicates are. -/
theorem retained_connections_valid (v : Validation) (path : Str) (calls : List Call) :
    (∀ out ∈ (run v (NewHost path) calls).2, ∀ c ∈ out,
        v.IsAllowed c = true ∧ v.IsWellConfigured c = true) ∧
    ∀ c ∈ (run v (NewHost path) calls).1.GetConnections,
        v.IsAllowed c = true ∧ v.IsWellConfigured c = true :=
  run_invariant v calls (NewHost path) (by simp [NewHost])

/-- C2 (as stated, refuted): on the sample file, with a validation that
accepts every record, the second `Parse` on the same host does not return
the sequence the first one returned. -/
theorem parse_twice_differs :
    (((loaded [] sampleContent).Parse acceptAll).1.Parse acceptAll).2 ≠
      ((loaded [] sampleContent).Parse acceptAll).2 := by
  decide

/-- C2 (amended): `Parse` leaves the content unchanged and returns the
connections the host already held followed by the records parsed from the
content, which are the same at every call; so the second call returns the
first call's sequence followed by those records once more, and on a freshly
loaded host the first call's sequence twice over. -/
theorem parse_twice_appends (v : Validation) (h : host) (path content : Str) :
    (h.Parse v).1.content = h.content ∧
    (h.Parse v).2 = h.connections ++ retained v (segments h.content).tail ∧
    ((h.Parse v).1.Parse v).2 = (h.Parse v).2 ++ retained v (segments h.content).tail ∧
    (((loaded path content).Parse v).1.Parse v).2 =
      ((loaded path content).Parse v).2 ++ ((loaded path content).Parse v).2 := by
  refine ⟨by simp [Parse_host], Parse_connections v h, ?_, ?_⟩
  · rw [Parse_connections v (h.Parse v).1, Parse_host, Parse_connections]
  · rw [Parse_connections v ((loaded path content).Parse v).1, Parse_host, Parse_connections]
    simp [loaded_connections]

/-- C3: on a freshly constructed host holding the sample file, when the two
predicates accept the record, `Parse` returns exactly one Connection, with
Name `web`, Hostname `1.2.3.4`, User `admin`, Port `22` and an empty
IdentityFile. -/
theorem sample_parse (v : Validation) (path : Str)
    (ha : v.IsAllowed sampleConnection = true)
    (hw : v.IsWellConfigured sampleConnection = true) :
    ((loaded path sampleContent).Parse v).2 = [sampleConnection] ∧
    ((loaded path sampleContent).Parse v).1.GetConnectionsCount = 1 := by
  have hmap : (segments sampleContent).tail.map ParseRow = [sampleConnection] := by decide
  have h : ((loaded path sampleContent).Parse v).2 = [sampleConnection] := by
    rw [Parse_connections, loaded_content, loaded_connections, retained, hmap]
    simp [Validation.passes, ha, hw]
  refine ⟨h, ?_⟩
  have h2 : ((loaded path sampleContent).Parse v).1.connections = [sampleConnection] := h
  simp [host.GetConnectionsCount, h2]

/-- C3 with a validation that accepts every record. -/
theorem sample_parse_witness :
    ((loaded [] sampleContent).Parse acceptAll).2 = [sampleConnection] ∧
    ((loaded [] sampleContent).Parse acceptAll).1.GetConnectionsCount = 1 :=
  sample_parse acceptAll [] rfl rfl

/-- C4: on a freshly constructed host, `Parse` returns no Connection when
nothing was read (no `ReadFile`, or one that failed), when the content is
whitespace only (in the sense of `strings.TrimSpace`), and when every line
of the content is a comment line (blank lines, such as the empty one after a
final line feed, may stand between them), whatever `IsAllowed` and
`IsWellConfigured` are. -/
theorem no_connections (v : Validation) (path : Str) :
    ((NewHost path).Parse v).2 = [] ∧
    (((NewHost path).ReadFile (fun _ => none)).Parse v).2 = [] ∧
    (∀ content : Str, (∀ c ∈ content, isSpace c = true) →
      ((loaded path content).Parse v).2 = []) ∧
    (∀ content : Str,
      (∀ line ∈ Split content ['\n'], (isCommentLine line || isBlankLine line) = true) →
      ((loaded path content).Parse v).2 = []) := by
  refine ⟨?_, ?_, ?_, ?_⟩
  · rw [Parse_connections]
    rfl
  · rw [Parse_connections]
    rfl
  · intro content h
    exact Parse_of_blank v path content (blankOrComment_of_spaces content h)
  · intro content h
    exact Parse_of_blank v path content
      (normalize_blank content ((lines_blankOrComment content).1 h))

/-- C4 at a file of whitespace, a file of comment lines, and the latter
with a final line feed. -/
theorem no_connections_witness :
    (∀ c ∈ blankContent, isSpace c = true) ∧
    (∀ line ∈ Split commentContent ['\n'], isCommentLine line = true) ∧
    ((loaded [] blankContent).Parse acceptAll).2 = [] ∧
    ((loaded [] commentContent).Parse acceptAll).2 = [] ∧
    ((loaded [] (commentContent ++ ['\n'])).Parse acceptAll).2 = [] :=
  ⟨by decide, by decide,
   (no_connections acceptAll []).2.2.1 blankContent (by decide),
   (no_connections acceptAll []).2.2.2 commentContent (by decide),
   (no_connections acceptAll []).2.2.2 (commentContent ++ ['\n']) (by decide)⟩

/-- C5: on a freshly loaded host, `Parse` returns, and `GetConnections`
returns afterwards, the records `ParseRow` produces for the segments after
the first, in their order, restricted to those both predicates accept; two
blocks that both pass give two Connections, the first block first. -/
theorem parse_fresh (v : Validation) (path content : Str) :
    ((loaded path content).Parse v).2 =
      (((segments content).tail.map ParseRow).filter
        (fun c => v.IsAllowed c && v.IsWellConfigured c)) ∧
    ((loaded path content).Parse v).1.GetConnections = ((loaded path content).Parse v).2 ∧
    (∀ pre b1 b2 : Str, segments content = [pre, b1, b2] →
      v.IsAllowed (ParseRow b1) = true → v.IsWellConfigured (ParseRow b1) = true →
      v.IsAllowed (ParseRow b2) = true → v.IsWellConfigured (ParseRow b2) = true →
      ((loaded path content).Parse v).2 = [ParseRow b1, ParseRow b2]) := by
  have h : ((loaded path content).Parse v).2 =
      (((segments content).tail.map ParseRow).filter
        (fun c => v.IsAllowed c && v.IsWellConfigured c)) := by
    rw [Parse_connections, loaded_content, loaded_connections]
    rfl
  refine ⟨h, rfl, ?_⟩
  intro pre b1 b2 hs a1 w1 a2 w2
  rw [h, hs]
  simp [a1, w1, a2, w2]

/-- C5 at the two-block file, with a validation that accepts every record. -/
theorem parse_fresh_witness :
    segments twoBlocks = [[], blockA, blockB] ∧
    ((loaded [] twoBlocks).Parse acceptAll).2 = [ParseRow blockA, ParseRow blockB] ∧
    ParseRow blockA = { Name := ['a'], Hostname := "10.0.0.1".toList } ∧
    ParseRow blockB = { Name := ['b'], Hostname := "10.0.0.2".toList } :=
  ⟨by decide,
   (parse_fresh acceptAll [] twoBlocks).2.2 [] blockA blockB (by decide) rfl rfl rfl rfl,
   by decide, by decide⟩

/-- C6: last assignment wins.  Each of the five fields `ParseRow` returns is
the value extracted from the last line of the block that, trimmed of spaces
and lower-cased, begins with the directive followed by a space, and is empty
when no line does; a block with two `User` lines keeps the value of the
second. -/
theorem last_assignment_wins (hostRaw : Str) :
    ParseRow hostRaw =
      { Name := lastAssigned "host".toList hostRaw,
        Hostname := lastAssigned "hostname".toList hostRaw,
        User := lastAssigned "user".toList hostRaw,
        Port := lastAssigned "port".toList hostRaw,
        IdentityFile := lastAssigned "identityfile".toList hostRaw } ∧
    (ParseRow twoUsers).User = "bob".toList :=
  ⟨ParseRow_eq hostRaw, by decide⟩

/-- C7 (the code at the failing input): a value that contains the name of
its directive loses it; `webhost`, `myhostname.com` and `superuser` are
stored as `web`, `my.com` and `super`. -/
theorem directive_removed_from_value :
    ParseRow nestedNames =
      { Name := "web".toList, Hostname := "my.com".toList, User := "super".toList } := by
  decide

/-- C8: when `IsWellConfigured` holds only for Connections with a non-empty
Hostname, a block without `HostName` line gives a Connection with an empty
Hostname, the loop of `Parse` leaves the host as it is at such a block, and
no slice `Parse` returns contains its Connection. -/
theorem no_hostname_dropped (v : Validation)
    (hwc : ∀ c, v.IsWellConfigured c = true → c.Hostname ≠ [])
    (block : Str)
    (hno : ∀ line ∈ Split block ['\n'],
      matchStart "hostname ".toList (ToLower (Trim line)) = false) :
    (ParseRow block).Hostname = [] ∧
    (∀ (h : host) (x : Nat), parseStep v h x block = h) ∧
    (∀ path content : Str, ParseRow block ∉ ((loaded path content).Parse v).2) := by
  have hH : (ParseRow block).Hostname = [] := by
    rw [ParseRow_eq]
    exact pick_none _ _ _ hno
  have hrej : v.IsWellConfigured (ParseRow block) = false := by
    cases hv : v.IsWellConfigured (ParseRow block) with
    | false => rfl
    | true => exact absurd hH (hwc _ hv)
  refine ⟨hH, ?_, ?_⟩
  · intro h x
    unfold parseStep
    split
    · rfl
    · simp [hrej]
  · intro path content hmem
    rw [Parse_connections, loaded_connections, List.nil_append] at hmem
    have := (mem_retained v _ _ hmem).2
    rw [hrej] at this
    exact absurd this (by simp)

/-- C8 at a block with `Host`, `User` and `Port` lines only. -/
theorem no_hostname_dropped_witness :
    (ParseRow noHostName).Hostname = [] ∧
    (∀ (h : host) (x : Nat), parseStep needsHostname h x noHostName = h) ∧
    (∀ path content : Str,
      ParseRow noHostName ∉ ((loaded path content).Parse needsHostname).2) :=
  no_hostname_dropped needsHostname
    (by intro c hc; cases hn : c.Hostname <;> simp_all [needsHostname])
    noHostName (by decide)

/-- C9 (the code at the failing input): the marker `!!` also occurs in a
value, and the split gives two segments after the first although the
normalized text holds `Host ` once; the second segment is `x`, which does
not begin with `Host `, and `Parse` stores `admin` as User of the first
block and an empty record for the second. -/
theorem marker_in_value_splits :
    normalize markerContent = "Host web\n  HostName 1.2.3.4\n  User admin!!x".toList ∧
    occurrences "Host ".toList (normalize markerContent) = 1 ∧
    segments markerContent =
      [[], "Host web\n  HostName 1.2.3.4\n  User admin".toList, "x".toList] ∧
    ((loaded [] markerContent).Parse acceptAll).2 =
      [{ Name := "web".toList, Hostname := "1.2.3.4".toList, User := "admin".toList }, {}] := by
  decide

/-- C10: every field of the Connection `ParseRow` returns is unchanged by
lower-casing, holds no upper-case letter, and neither starts nor ends with a
space. -/
theorem fields_captured (hostRaw : Str) :
    Captured (ParseRow hostRaw).Name ∧ Captured (ParseRow hostRaw).Hostname ∧
    Captured (ParseRow hostRaw).User ∧ Captured (ParseRow hostRaw).Port ∧
    Captured (ParseRow hostRaw).IdentityFile := by
  rw [ParseRow_eq]
  exact ⟨captured_pick _ _, captured_pick _ _, captured_pick _ _, captured_pick _ _,
    captured_pick _ _⟩

end Hssh
